import Mathlib

/-!
Verification of the titledb reduction utilities (`src/tiny.py`, `src/trim.py`).

The scripts operate on a JSON object mapping title ids to records (JSON
objects mapping field names to arbitrary JSON values).  Python `dict`s are
modelled as association lists that preserve insertion order; `dict`
assignment (`d[k] = v`) replaces the value in place when the key exists and
appends otherwise, exactly like CPython.  JSON numbers are modelled as
integers (floating point values never influence any of the control flow
verified here); Python truthiness of JSON values is modelled by `truthy`.
-/

/-- A JSON value, as produced by `json.load`. -/
inductive JValue : Type
  | str : String → JValue
  | num : Int → JValue
  | bool : Bool → JValue
  | null : JValue
  | arr : List JValue → JValue
  | obj : List (String × JValue) → JValue

/-- A title record: a Python dict from field name to JSON value. -/
abbrev TitleRecord := List (String × JValue)

/-- A title database: a Python dict from title id to record. -/
abbrev TitleDatabase := List (String × TitleRecord)

/-- Python truthiness of a JSON value (`if v:`): empty strings, zero,
`False`, `None`, empty arrays and empty objects are falsy. -/
def truthy : JValue → Bool
  | JValue.str s => !s.isEmpty
  | JValue.num n => decide (n ≠ 0)
  | JValue.bool b => b
  | JValue.null => false
  | JValue.arr xs => !xs.isEmpty
  | JValue.obj kvs => !kvs.isEmpty

/-- Truthiness of `d.get(k)`: `None` (absent key) is falsy. -/
def truthyOpt : Option JValue → Bool
  | none => false
  | some v => truthy v

/-- The keys of a Python dict, in iteration order. -/
def keysOf {α : Type} (d : List (String × α)) : List String := d.map Prod.fst

/-- Python `k in d`. -/
def hasKey {α : Type} (d : List (String × α)) (k : String) : Bool :=
  d.any (fun p => p.1 == k)

/-- Python `d.get(k)` (and `d[k]` when the key is present). -/
def dictGet {α : Type} (d : List (String × α)) (k : String) : Option α :=
  (d.find? (fun p => p.1 == k)).map Prod.snd

/-- Python `d[k] = v`: replace in place when the key exists, append
otherwise. -/
def dictInsert {α : Type} (d : List (String × α)) (k : String) (v : α) : List (String × α) :=
  if hasKey d k then d.map (fun p => if p.1 == k then (k, v) else p) else d ++ [(k, v)]

/-- The allow-list of field names from `src/tiny.py` (`VALID_FIELDS`). -/
def VALID_FIELDS : List String :=
  ["bannerUrl", "category", "description", "developer", "frontBoxArt", "iconUrl", "id", "intro",
   "isDemo", "key", "language", "languages", "name", "nsuId", "numberOfPlayers", "publisher",
   "rank", "rating", "ratingContent", "region", "regions", "releaseDate", "rightsId",
   "screenshots", "size", "version"]

/-- Drop the elements already seen, keeping first occurrences. -/
def dedupFirstGo (seen : List String) : List String → List String
  | [] => []
  | x :: rest =>
    if seen.contains x then dedupFirstGo seen rest
    else x :: dedupFirstGo (x :: seen) rest

/-- Keep the first occurrence of every element, as iterating a Python set
built from a list does (order is unspecified in Python; only membership is
relied upon). -/
def dedupFirst (l : List String) : List String := dedupFirstGo [] l

/-- `src/tiny.py` `validate_fields`: exits with status 1 reporting
`set(fields) - set(VALID_FIELDS)` when `fields` is non-empty and contains an
unknown field; otherwise the program proceeds. -/
def validate_fields (fields : List String) : Except (List String) Unit :=
  if !fields.isEmpty && !(fields.all (fun field => VALID_FIELDS.contains field)) then
    Except.error (dedupFirst (fields.filter (fun field => !(VALID_FIELDS.contains field))))
  else
    Except.ok ()

/-- The dict comprehension in `trim_titledb`,
`{field: title_data[field] for field in ks if field in title_data}`,
building the new record left to right. -/
def buildRecGo (title_data : TitleRecord) : List String → TitleRecord → TitleRecord
  | [], acc => acc
  | field :: rest, acc =>
    match dictGet title_data field with
    | some v => buildRecGo title_data rest (dictInsert acc field v)
    | none => buildRecGo title_data rest acc

/-- The record kept for a retained title:
`{field: title_data[field] for field in (fields or title_data) if field in title_data}`.
An empty `fields` list is falsy in Python, so the comprehension then ranges
over the record's own keys. -/
def recordComprehension (title_data : TitleRecord) (fields : List String) : TitleRecord :=
  buildRecGo title_data (if fields.isEmpty then keysOf title_data else fields) []

/-- The loop of `trim_titledb` in `src/tiny.py`: entries with a truthy
`"name"` are kept, projected by `recordComprehension`. -/
def trimGo (fields : List String) : List (String × TitleRecord) → TitleDatabase → TitleDatabase
  | [], new_data => new_data
  | (title_id, title_data) :: rest, new_data =>
    if truthyOpt (dictGet title_data "name") then
      trimGo fields rest (dictInsert new_data title_id (recordComprehension title_data fields))
    else
      trimGo fields rest new_data

/-- `trim_titledb(data, fields)` from `src/tiny.py` (pure result; the
progress-log arithmetic is modelled by `trim_titledbE`). -/
def trim_titledb (data : TitleDatabase) (fields : List String) : TitleDatabase :=
  trimGo fields data []

/-- The loop of `trim_titledb` including the progress-log arithmetic:
each iteration evaluates `count % (len(data) // 10 if len(data) > 10 else 1)`
and, when the log fires, `count / len(data)`; a zero divisor raises
`ZeroDivisionError`.  `n` is `len(data)`; `count` starts at 1. -/
def trimLoopE (n : Nat) (fields : List String) :
    Nat → List (String × TitleRecord) → TitleDatabase → Except String TitleDatabase
  | _, [], new_data => Except.ok new_data
  | count, (title_id, title_data) :: rest, new_data =>
    let new_data2 :=
      if truthyOpt (dictGet title_data "name") then
        dictInsert new_data title_id (recordComprehension title_data fields)
      else new_data
    let modulus := if n > 10 then n / 10 else 1
    if modulus = 0 then Except.error "ZeroDivisionError: integer modulo by zero"
    else if count % modulus = 0 || count = n then
      if n = 0 then Except.error "ZeroDivisionError: division by zero"
      else trimLoopE n fields (count + 1) rest new_data2
    else trimLoopE n fields (count + 1) rest new_data2

/-- `trim_titledb` with the progress-log arithmetic made explicit. -/
def trim_titledbE (data : TitleDatabase) (fields : List String) : Except String TitleDatabase :=
  trimLoopE data.length fields 1 data []

/-- One run of `src/tiny.py`'s `__main__`: the requested fields default to
`VALID_FIELDS` when `-f` is omitted; validation happens before the input
file is read, and the output file is written only after a successful trim. -/
structure TinyRun where
  readHappened : Bool
  exitCode : Nat
  reported : Option (List String)
  written : Option TitleDatabase

/-- `src/tiny.py` `__main__`, given the parsed `-f` argument (`none` when
omitted) and the parsed contents of the input file. -/
def tinyMain (argFields : Option (List String)) (fileData : TitleDatabase) : TinyRun :=
  let fields := match argFields with
    | none => VALID_FIELDS
    | some fs => fs
  match validate_fields fields with
  | Except.error bad => ⟨false, 1, some bad, none⟩
  | Except.ok _ =>
    match trim_titledbE fileData fields with
    | Except.error _ => ⟨true, 1, none, none⟩
    | Except.ok new_data => ⟨true, 0, none, some new_data⟩

/-- The six fields hardcoded by `src/trim.py`, in evaluation order of its
dict literal. -/
def sixFields : List String := ["description", "iconUrl", "id", "name", "releaseDate", "size"]

/-- Python `v[f]`: raises `KeyError` when the key is absent. -/
def lookupOrKeyError (v : TitleRecord) (f : String) : Except String JValue :=
  match dictGet v f with
  | some x => Except.ok x
  | none => Except.error ("KeyError: " ++ f)

/-- The dict literal built by `src/trim.py` for a retained entry; its six
subscript expressions are evaluated in source order and the first missing
field raises `KeyError`. -/
def buildTrimPyRecord (v : TitleRecord) : Except String TitleRecord :=
  match lookupOrKeyError v "description" with
  | Except.error e => Except.error e
  | Except.ok de =>
  match lookupOrKeyError v "iconUrl" with
  | Except.error e => Except.error e
  | Except.ok ic =>
  match lookupOrKeyError v "id" with
  | Except.error e => Except.error e
  | Except.ok idv =>
  match lookupOrKeyError v "name" with
  | Except.error e => Except.error e
  | Except.ok nm =>
  match lookupOrKeyError v "releaseDate" with
  | Except.error e => Except.error e
  | Except.ok rd =>
  match lookupOrKeyError v "size" with
  | Except.error e => Except.error e
  | Except.ok sz =>
    Except.ok [("description", de), ("iconUrl", ic), ("id", idv), ("name", nm),
               ("releaseDate", rd), ("size", sz)]

/-- The loop of `src/trim.py`: entries with a falsy `name` are skipped, the
rest are rebuilt from the six hardcoded fields; a `KeyError` aborts the
whole run. -/
def trimPyGo : List (String × TitleRecord) → TitleDatabase → Except String TitleDatabase
  | [], new_data => Except.ok new_data
  | (k, v) :: rest, new_data =>
    if truthyOpt (dictGet v "name") then
      match buildTrimPyRecord v with
      | Except.error e => Except.error e
      | Except.ok rec => trimPyGo rest (dictInsert new_data k rec)
    else trimPyGo rest new_data

/-- `src/trim.py` processing of the parsed input. -/
def trimPyProcess (data : TitleDatabase) : Except String TitleDatabase := trimPyGo data []

/-- The contents of the (single) file after a run of `src/trim.py`: the
file is opened for writing only after the loop finishes, so an uncaught
`KeyError` leaves the input unchanged. -/
def trimPyFinalFile (data : TitleDatabase) : TitleDatabase :=
  match trimPyProcess data with
  | Except.ok new_data => new_data
  | Except.error _ => data

theorem hasKey_iff {α : Type} (d : List (String × α)) (k : String) :
    hasKey d k = true ↔ k ∈ keysOf d := by
  simp [hasKey, keysOf, List.any_eq_true, List.mem_map]

theorem dictGet_nil {α : Type} (k : String) : dictGet ([] : List (String × α)) k = none := rfl

theorem dictGet_cons {α : Type} (k' k : String) (v : α) (d : List (String × α)) :
    dictGet ((k', v) :: d) k = if k' = k then some v else dictGet d k := by
  by_cases h : k' = k
  · rw [dictGet, List.find?_cons_of_pos _ (by simpa using h)]
    simp [h]
  · rw [dictGet, List.find?_cons_of_neg _ (by simpa using h)]
    simp [h]
    rfl

theorem dictGet_isSome_iff {α : Type} (d : List (String × α)) (k : String) :
    (dictGet d k).isSome = true ↔ k ∈ keysOf d := by
  induction d with
  | nil => simp [dictGet_nil, keysOf]
  | cons p rest ih =>
    rcases p with ⟨k', v⟩
    rw [dictGet_cons]
    by_cases h : k' = k
    · simp [h, keysOf]
    · simpa [h, keysOf, Ne.symm h] using ih

theorem dictGet_eq_none_iff {α : Type} (d : List (String × α)) (k : String) :
    dictGet d k = none ↔ k ∉ keysOf d := by
  rw [← dictGet_isSome_iff]
  cases h : dictGet d k <;> simp [h]

theorem dictGet_mem {α : Type} {d : List (String × α)} {k : String} {v : α}
    (h : dictGet d k = some v) : (k, v) ∈ d := by
  induction d with
  | nil => simp [dictGet_nil] at h
  | cons p rest ih =>
    rcases p with ⟨k', v'⟩
    rw [dictGet_cons] at h
    by_cases hk : k' = k
    · simp only [if_pos hk, Option.some.injEq] at h
      subst hk
      subst h
      exact List.mem_cons_self _ _
    · rw [if_neg hk] at h
      exact List.mem_cons_of_mem _ (ih h)

theorem dictInsert_of_not_hasKey {α : Type} {d : List (String × α)} {k : String} (v : α)
    (h : ¬ hasKey d k = true) : dictInsert d k v = d ++ [(k, v)] := by
  simp [dictInsert, h]

theorem dictInsert_of_consistent {α : Type} {d : List (String × α)} {k : String} {v : α}
    (hk : hasKey d k = true) (hc : ∀ p ∈ d, p.1 = k → p.2 = v) :
    dictInsert d k v = d := by
  rw [dictInsert, if_pos hk]
  have : ∀ p ∈ d, (if p.1 == k then (k, v) else p) = p := by
    intro p hp
    by_cases h : p.1 = k
    · rcases p with ⟨a, b⟩
      rw [if_pos (by simpa using h)]
      have hb := hc (a, b) hp h
      subst h
      exact congrArg (Prod.mk a) hb.symm
    · rw [if_neg (by simpa using h)]
  rw [List.map_congr_left this]
  simp

theorem keysOf_append {α : Type} (d e : List (String × α)) :
    keysOf (d ++ e) = keysOf d ++ keysOf e := by
  simp [keysOf]

theorem keysOf_dictInsert {α : Type} (d : List (String × α)) (k : String) (v : α) :
    keysOf (dictInsert d k v) = if hasKey d k then keysOf d else keysOf d ++ [k] := by
  by_cases h : hasKey d k
  · rw [dictInsert, if_pos h, if_pos h]
    simp only [keysOf, List.map_map]
    apply List.map_congr_left
    intro p hp
    by_cases hpk : p.1 = k
    · simp [hpk]
    · simp [hpk]
  · rw [dictInsert_of_not_hasKey _ h, if_neg h, keysOf_append]
    rfl

theorem nodup_keysOf_dictInsert {α : Type} {d : List (String × α)} (k : String) (v : α)
    (h : (keysOf d).Nodup) : (keysOf (dictInsert d k v)).Nodup := by
  rw [keysOf_dictInsert]
  by_cases hk : hasKey d k
  · rw [if_pos hk]; exact h
  · rw [if_neg hk]
    have hkm : k ∉ keysOf d := fun hm => hk ((hasKey_iff d k).mpr hm)
    simp [List.nodup_append, h, hkm]

theorem mem_dictInsert {α : Type} {d : List (String × α)} {k : String} {v : α}
    {p : String × α} (hp : p ∈ dictInsert d k v) : p ∈ d ∨ p = (k, v) := by
  by_cases h : hasKey d k
  · rw [dictInsert, if_pos h] at hp
    rcases List.mem_map.mp hp with ⟨q, hq, he⟩
    by_cases hqk : q.1 = k
    · right
      rw [← he, if_pos (by simpa using hqk)]
    · left
      rwa [← he, if_neg (by simpa using hqk)]
  · rw [dictInsert_of_not_hasKey _ h] at hp
    rcases List.mem_append.mp hp with h1 | h1
    · exact Or.inl h1
    · exact Or.inr (List.mem_singleton.mp h1)

theorem dictGet_eq_some_of_nodup {α : Type} {d : List (String × α)} {k : String} {v : α}
    (hnd : (keysOf d).Nodup) (hm : (k, v) ∈ d) : dictGet d k = some v := by
  induction d with
  | nil => simp at hm
  | cons p rest ih =>
    rcases p with ⟨k', v'⟩
    rw [dictGet_cons]
    rcases List.mem_cons.mp hm with h1 | h1
    · rw [if_pos (Prod.mk.injEq .. ▸ h1).1.symm]
      exact congrArg some (Prod.mk.injEq .. ▸ h1).2.symm
    · have hk : k' ≠ k := by
        intro he
        subst he
        have : k' ∈ keysOf rest := List.mem_map.mpr ⟨(k', v), h1, rfl⟩
        exact (List.nodup_cons.mp hnd).1 this
      rw [if_neg hk]
      exact ih (List.nodup_cons.mp hnd).2 h1

/-- Normal form of the dict comprehension: the first occurrence of each
requested key that exists in `title_data`, paired with its value there. -/
def projectFields (title_data : TitleRecord) : List String → TitleRecord
  | [] => []
  | field :: rest =>
    match dictGet title_data field with
    | some v =>
      (field, v) :: projectFields title_data (rest.filter (fun g => !(g == field)))
    | none => projectFields title_data rest
termination_by l => l.length
decreasing_by
  · simp only [List.length_cons]
    exact Nat.lt_succ_of_le (List.length_filter_le _ _)
  · simp

theorem projectFields_nil (td : TitleRecord) : projectFields td [] = [] := by
  simp [projectFields]

theorem projectFields_cons_some (td : TitleRecord) (f : String) (v : JValue) (rest : List String)
    (h : dictGet td f = some v) :
    projectFields td (f :: rest)
      = (f, v) :: projectFields td (rest.filter (fun g => !(g == f))) := by
  rw [projectFields, h]

theorem projectFields_cons_none (td : TitleRecord) (f : String) (rest : List String)
    (h : dictGet td f = none) :
    projectFields td (f :: rest) = projectFields td rest := by
  rw [projectFields, h]

theorem projectFields_get_aux (td : TitleRecord) :
    ∀ (n : Nat) (l : List String), l.length ≤ n →
      ∀ g, dictGet (projectFields td l) g = if g ∈ l then dictGet td g else none := by
  intro n
  induction n with
  | zero =>
    intro l hl g
    rw [List.length_eq_zero.mp (Nat.le_zero.mp hl)]
    simp [projectFields_nil, dictGet_nil]
  | succ n ih =>
    intro l hl g
    match l with
    | [] => simp [projectFields_nil, dictGet_nil]
    | f :: rest =>
      have hrest : rest.length ≤ n := by
        simpa [Nat.succ_le_succ_iff] using hl
      cases hf : dictGet td f with
      | some v =>
        rw [projectFields_cons_some td f v rest hf, dictGet_cons]
        by_cases hg : f = g
        · subst hg
          simp [hf]
        · rw [if_neg hg,
            ih (rest.filter (fun y => !(y == f))) (le_trans (List.length_filter_le _ _) hrest) g]
          by_cases hgr : g ∈ rest
          · have hmf : g ∈ rest.filter (fun y => !(y == f)) := by
              refine List.mem_filter.mpr ⟨hgr, ?_⟩
              simp [Ne.symm hg]
            simp [hmf, hgr, hg]
          · have hmf : g ∉ rest.filter (fun y => !(y == f)) := by
              intro hm
              exact hgr (List.mem_filter.mp hm).1
            simp [hmf, hgr, hg, List.mem_cons, Ne.symm hg]
      | none =>
        rw [projectFields_cons_none td f rest hf, ih rest hrest g]
        by_cases hg : f = g
        · subst hg
          by_cases hfr : f ∈ rest <;> simp [hfr, hf]
        · simp [List.mem_cons, Ne.symm hg]

/-- Lookup in the projection: a requested key that exists keeps its original
value, everything else is absent. -/
theorem projectFields_get (td : TitleRecord) (l : List String) (g : String) :
    dictGet (projectFields td l) g = if g ∈ l then dictGet td g else none :=
  projectFields_get_aux td l.length l le_rfl g

/-- Keys of the projection: requested keys that exist in the record. -/
theorem mem_keysOf_projectFields (td : TitleRecord) (l : List String) (g : String) :
    g ∈ keysOf (projectFields td l) ↔ g ∈ l ∧ g ∈ keysOf td := by
  rw [← dictGet_isSome_iff, projectFields_get]
  by_cases h : g ∈ l
  · simp [h, dictGet_isSome_iff]
  · simp [h]

theorem nodup_keysOf_projectFields_aux (td : TitleRecord) :
    ∀ (n : Nat) (l : List String), l.length ≤ n → (keysOf (projectFields td l)).Nodup := by
  intro n
  induction n with
  | zero =>
    intro l hl
    rw [List.length_eq_zero.mp (Nat.le_zero.mp hl)]
    simp [projectFields_nil, keysOf]
  | succ n ih =>
    intro l hl
    match l with
    | [] => simp [projectFields_nil, keysOf]
    | f :: rest =>
      have hrest : rest.length ≤ n := by
        simpa [Nat.succ_le_succ_iff] using hl
      cases hf : dictGet td f with
      | some v =>
        rw [projectFields_cons_some td f v rest hf]
        rw [show keysOf ((f, v) :: projectFields td (rest.filter (fun g => !(g == f))))
            = f :: keysOf (projectFields td (rest.filter (fun g => !(g == f)))) from rfl]
        rw [List.nodup_cons]
        constructor
        · intro hm
          rcases (mem_keysOf_projectFields td _ f).mp hm with ⟨hmem, _⟩
          simp at hmem
        · exact ih _ (le_trans (List.length_filter_le _ _) hrest)
      | none =>
        rw [projectFields_cons_none td f rest hf]
        exact ih rest hrest

theorem nodup_keysOf_projectFields (td : TitleRecord) (l : List String) :
    (keysOf (projectFields td l)).Nodup :=
  nodup_keysOf_projectFields_aux td l.length l le_rfl

theorem projectFields_cons_notMem_aux (f : String) (v : JValue) (td : TitleRecord) :
    ∀ (n : Nat) (l : List String), l.length ≤ n → f ∉ l →
      projectFields ((f, v) :: td) l = projectFields td l := by
  intro n
  induction n with
  | zero =>
    intro l hl _
    rw [List.length_eq_zero.mp (Nat.le_zero.mp hl)]
    rw [projectFields_nil, projectFields_nil]
  | succ n ih =>
    intro l hl hf
    match l with
    | [] => rw [projectFields_nil, projectFields_nil]
    | g :: rest =>
      have hrest : rest.length ≤ n := by
        simpa [Nat.succ_le_succ_iff] using hl
      have hfg : f ≠ g := fun he => hf (he ▸ List.mem_cons_self g rest)
      have hget : dictGet ((f, v) :: td) g = dictGet td g := by
        rw [dictGet_cons, if_neg hfg]
      cases hg : dictGet td g with
      | some w =>
        rw [projectFields_cons_some _ g w rest (hget.trans hg),
          projectFields_cons_some td g w rest hg,
          ih (rest.filter (fun y => !(y == g))) (le_trans (List.length_filter_le _ _) hrest)
            (fun hm => hf (List.mem_cons_of_mem g (List.mem_filter.mp hm).1))]
      | none =>
        rw [projectFields_cons_none _ g rest (hget.trans hg),
          projectFields_cons_none td g rest hg,
          ih rest hrest (fun hm => hf (List.mem_cons_of_mem g hm))]

/-- Prepending a pair whose key is not requested does not change the
projection. -/
theorem projectFields_cons_notMem (f : String) (v : JValue) (td : TitleRecord)
    (l : List String) (hf : f ∉ l) :
    projectFields ((f, v) :: td) l = projectFields td l :=
  projectFields_cons_notMem_aux f v td l.length l le_rfl hf

theorem projectFields_projectFields_aux (td : TitleRecord) :
    ∀ (n : Nat) (l : List String), l.length ≤ n →
      projectFields (projectFields td l) l = projectFields td l := by
  intro n
  induction n with
  | zero =>
    intro l hl
    rw [List.length_eq_zero.mp (Nat.le_zero.mp hl)]
    rw [projectFields_nil, projectFields_nil]
  | succ n ih =>
    intro l hl
    match l with
    | [] => rw [projectFields_nil, projectFields_nil]
    | f :: rest =>
      have hrest : rest.length ≤ n := by
        simpa [Nat.succ_le_succ_iff] using hl
      have hfil : (rest.filter (fun y => !(y == f))).length ≤ n :=
        le_trans (List.length_filter_le _ _) hrest
      cases hf : dictGet td f with
      | some v =>
        rw [projectFields_cons_some td f v rest hf]
        have hnotmem : f ∉ rest.filter (fun y => !(y == f)) := by
          intro hm
          have := (List.mem_filter.mp hm).2
          simp at this
        rw [projectFields_cons_some _ f v _ (by rw [dictGet_cons, if_pos rfl]),
          projectFields_cons_notMem f v _ _ hnotmem, ih _ hfil]
      | none =>
        rw [projectFields_cons_none td f rest hf]
        have hget : dictGet (projectFields td rest) f = none := by
          rw [projectFields_get]
          by_cases hm : f ∈ rest <;> simp [hm, hf]
        rw [projectFields_cons_none _ f rest hget, ih rest hrest]

/-- Projecting twice onto the same field list is the same as projecting
once. -/
theorem projectFields_projectFields (td : TitleRecord) (l : List String) :
    projectFields (projectFields td l) l = projectFields td l :=
  projectFields_projectFields_aux td l.length l le_rfl

/-- A record with distinct keys projected onto its own key list is itself. -/
theorem projectFields_keysOf_self (td : TitleRecord) (hnd : (keysOf td).Nodup) :
    projectFields td (keysOf td) = td := by
  induction td with
  | nil => exact projectFields_nil []
  | cons p rest ih =>
    rcases p with ⟨k, v⟩
    have hk : k ∉ keysOf rest := (List.nodup_cons.mp (by simpa [keysOf] using hnd)).1
    have hnd' : (keysOf rest).Nodup := (List.nodup_cons.mp (by simpa [keysOf] using hnd)).2
    rw [show keysOf ((k, v) :: rest) = k :: keysOf rest from rfl]
    rw [projectFields_cons_some _ k v _ (by rw [dictGet_cons, if_pos rfl])]
    have hfil : (keysOf rest).filter (fun y => !(y == k)) = keysOf rest := by
      apply List.filter_eq_self.mpr
      intro g hg
      simp only [Bool.not_eq_eq_eq_not, Bool.not_true, beq_eq_false_iff_ne, ne_eq]
      intro he
      exact hk (he ▸ hg)
    rw [hfil, projectFields_cons_notMem k v rest _ hk, ih hnd']

theorem hasKey_append {α : Type} (d e : List (String × α)) (k : String) :
    hasKey (d ++ e) k = (hasKey d k || hasKey e k) := by
  simp [hasKey]

theorem hasKey_singleton {α : Type} (f : String) (v : α) (k : String) :
    hasKey [(f, v)] k = (f == k) := by
  simp [hasKey]

theorem buildRecGo_cons_some (td : TitleRecord) (f : String) (v : JValue)
    (rest : List String) (acc : TitleRecord) (h : dictGet td f = some v) :
    buildRecGo td (f :: rest) acc = buildRecGo td rest (dictInsert acc f v) := by
  rw [buildRecGo, h]

theorem buildRecGo_cons_none (td : TitleRecord) (f : String)
    (rest : List String) (acc : TitleRecord) (h : dictGet td f = none) :
    buildRecGo td (f :: rest) acc = buildRecGo td rest acc := by
  rw [buildRecGo, h]

theorem buildRecGo_eq (td : TitleRecord) :
    ∀ (l : List String) (acc : TitleRecord),
      (∀ p ∈ acc, dictGet td p.1 = some p.2) → (keysOf acc).Nodup →
      buildRecGo td l acc = acc ++ projectFields td (l.filter (fun g => !(hasKey acc g))) := by
  intro l
  induction l with
  | nil =>
    intro acc _ _
    simp [buildRecGo, projectFields_nil]
  | cons f rest ih =>
    intro acc hcons hnd
    cases hf : dictGet td f with
    | some v =>
      rw [buildRecGo_cons_some td f v rest acc hf]
      by_cases hk : hasKey acc f = true
      · have hins : dictInsert acc f v = acc := by
          apply dictInsert_of_consistent hk
          intro p hp hpk
          have h1 := hcons p hp
          rw [hpk, hf] at h1
          exact (Option.some.injEq .. ▸ h1).symm
        rw [hins, ih acc hcons hnd, List.filter_cons]
        simp [hk]
      · have hins : dictInsert acc f v = acc ++ [(f, v)] := dictInsert_of_not_hasKey v hk
        have hcons2 : ∀ p ∈ acc ++ [(f, v)], dictGet td p.1 = some p.2 := by
          intro p hp
          rcases List.mem_append.mp hp with h1 | h1
          · exact hcons p h1
          · rw [List.mem_singleton.mp h1]
            exact hf
        have hkm : f ∉ keysOf acc := fun hm => hk ((hasKey_iff acc f).mpr hm)
        have hnd2 : (keysOf (acc ++ [(f, v)])).Nodup := by
          rw [keysOf_append, List.nodup_append]
          refine ⟨hnd, by simp [keysOf], ?_⟩
          intro a ha
          simp only [keysOf, List.map_cons, List.map_nil, List.mem_singleton]
          intro he
          exact hkm (he ▸ ha)
        rw [hins, ih (acc ++ [(f, v)]) hcons2 hnd2, List.filter_cons]
        have hkf : (!(hasKey acc f)) = true := by simp [hk]
        simp only [hkf, if_true]
        rw [projectFields_cons_some td f v _ hf, List.append_assoc, List.singleton_append]
        congr 2
        rw [List.filter_filter]
        apply congrArg (projectFields td)
        apply List.filter_congr
        intro g _
        rw [hasKey_append, hasKey_singleton]
        by_cases hfg : f = g
        · subst hfg
          simp
        · have h1 : (f == g) = false := by simp [hfg]
          have h2 : (g == f) = false := by simp [Ne.symm hfg]
          rw [h1, h2]
          simp [Bool.and_comm]
    | none =>
      rw [buildRecGo_cons_none td f rest acc hf, ih acc hcons hnd, List.filter_cons]
      by_cases hk : hasKey acc f = true
      · simp [hk]
      · simp only [Bool.not_eq_true] at hk
        simp only [hk, Bool.not_false, if_true]
        rw [projectFields_cons_none td f _ hf]

/-- The dict comprehension equals its normal form. -/
theorem recordComprehension_eq (td : TitleRecord) (fields : List String) :
    recordComprehension td fields
      = projectFields td (if fields.isEmpty then keysOf td else fields) := by
  rw [recordComprehension, buildRecGo_eq td _ [] (by simp) (by simp [keysOf])]
  simp [hasKey]

theorem trimGo_cons_true (fields : List String) (tid : String) (td : TitleRecord)
    (rest : List (String × TitleRecord)) (acc : TitleDatabase)
    (h : truthyOpt (dictGet td "name") = true) :
    trimGo fields ((tid, td) :: rest) acc
      = trimGo fields rest (dictInsert acc tid (recordComprehension td fields)) := by
  rw [trimGo, if_pos h]

theorem trimGo_cons_false (fields : List String) (tid : String) (td : TitleRecord)
    (rest : List (String × TitleRecord)) (acc : TitleDatabase)
    (h : truthyOpt (dictGet td "name") = false) :
    trimGo fields ((tid, td) :: rest) acc = trimGo fields rest acc := by
  rw [trimGo, if_neg (by simp [h])]

/-- Every entry of the trimmed database either was already accumulated or
stems from an input entry with a truthy name, projected by the
comprehension. -/
theorem trimGo_mem (fields : List String) :
    ∀ (data : List (String × TitleRecord)) (acc : TitleDatabase) (p : String × TitleRecord),
      p ∈ trimGo fields data acc →
      p ∈ acc ∨ ∃ td, (p.1, td) ∈ data ∧ truthyOpt (dictGet td "name") = true ∧
        p.2 = recordComprehension td fields := by
  intro data
  induction data with
  | nil =>
    intro acc p hp
    exact Or.inl hp
  | cons q rest ih =>
    intro acc p hp
    rcases q with ⟨tid, td⟩
    cases ht : truthyOpt (dictGet td "name") with
    | true =>
      rw [trimGo_cons_true fields tid td rest acc ht] at hp
      rcases ih _ p hp with h1 | ⟨td', h1, h2, h3⟩
      · rcases mem_dictInsert h1 with h2 | h2
        · exact Or.inl h2
        · refine Or.inr ⟨td, ?_, ht, ?_⟩
          · rw [h2]
            exact List.mem_cons_self _ _
          · rw [h2]
      · exact Or.inr ⟨td', List.mem_cons_of_mem _ h1, h2, h3⟩
    | false =>
      rw [trimGo_cons_false fields tid td rest acc ht] at hp
      rcases ih _ p hp with h1 | ⟨td', h1, h2, h3⟩
      · exact Or.inl h1
      · exact Or.inr ⟨td', List.mem_cons_of_mem _ h1, h2, h3⟩

theorem trimGo_nodup (fields : List String) :
    ∀ (data : List (String × TitleRecord)) (acc : TitleDatabase),
      (keysOf acc).Nodup → (keysOf (trimGo fields data acc)).Nodup := by
  intro data
  induction data with
  | nil =>
    intro acc h
    exact h
  | cons q rest ih =>
    intro acc h
    rcases q with ⟨tid, td⟩
    cases ht : truthyOpt (dictGet td "name") with
    | true =>
      rw [trimGo_cons_true fields tid td rest acc ht]
      exact ih _ (nodup_keysOf_dictInsert tid _ h)
    | false =>
      rw [trimGo_cons_false fields tid td rest acc ht]
      exact ih _ h

/-- The filter/project function applied to each input entry. -/
def trimEntry (fields : List String) (p : String × TitleRecord) :
    Option (String × TitleRecord) :=
  if truthyOpt (dictGet p.2 "name") then some (p.1, recordComprehension p.2 fields) else none

/-- When the input keys are distinct (as they are for a parsed JSON
object), the loop of `trim_titledb` is a filter-and-project pass. -/
theorem trimGo_eq_filterMap (fields : List String) :
    ∀ (data : List (String × TitleRecord)) (acc : TitleDatabase),
      (keysOf data).Nodup → (∀ k ∈ keysOf acc, k ∉ keysOf data) →
      trimGo fields data acc = acc ++ data.filterMap (trimEntry fields) := by
  intro data
  induction data with
  | nil =>
    intro acc _ _
    simp [trimGo]
  | cons q rest ih =>
    intro acc hnd hdisj
    rcases q with ⟨tid, td⟩
    have hnd' : (keysOf rest).Nodup := (List.nodup_cons.mp hnd).2
    have htid : tid ∉ keysOf rest := (List.nodup_cons.mp hnd).1
    cases ht : truthyOpt (dictGet td "name") with
    | true =>
      rw [trimGo_cons_true fields tid td rest acc ht]
      have hfresh : ¬ hasKey acc tid = true := by
        intro hk
        exact hdisj tid ((hasKey_iff acc tid).mp hk) (List.mem_cons_self _ _)
      rw [dictInsert_of_not_hasKey _ hfresh]
      have hdisj2 : ∀ k ∈ keysOf (acc ++ [(tid, recordComprehension td fields)]),
          k ∉ keysOf rest := by
        intro k hk
        rw [keysOf_append] at hk
        rcases List.mem_append.mp hk with h1 | h1
        · intro hm
          exact hdisj k h1 (List.mem_cons_of_mem _ hm)
        · have : k = tid := by simpa [keysOf] using h1
          rw [this]
          exact htid
      rw [ih _ hnd' hdisj2, List.append_assoc, List.singleton_append]
      congr 1
      rw [List.filterMap_cons]
      simp [trimEntry, ht]
    | false =>
      rw [trimGo_cons_false fields tid td rest acc ht]
      have hdisj2 : ∀ k ∈ keysOf acc, k ∉ keysOf rest := by
        intro k hk hm
        exact hdisj k hk (List.mem_cons_of_mem _ hm)
      rw [ih _ hnd' hdisj2, List.filterMap_cons]
      simp [trimEntry, ht]

/-- `trim_titledb` as a filter-and-project pass over inputs with distinct
keys. -/
theorem trim_titledb_eq_filterMap (data : TitleDatabase) (fields : List String)
    (hnd : (keysOf data).Nodup) :
    trim_titledb data fields = data.filterMap (trimEntry fields) := by
  rw [trim_titledb, trimGo_eq_filterMap fields data [] hnd (by simp [keysOf])]
  rfl

/-- Every entry of the trimmed database stems from an input entry with a
truthy name. -/
theorem trim_titledb_mem (data : TitleDatabase) (fields : List String)
    (p : String × TitleRecord) (hp : p ∈ trim_titledb data fields) :
    ∃ td, (p.1, td) ∈ data ∧ truthyOpt (dictGet td "name") = true ∧
      p.2 = recordComprehension td fields := by
  rcases trimGo_mem fields data [] p hp with h1 | h1
  · simp at h1
  · exact h1

/-- The trimmed database always has distinct keys. -/
theorem trim_titledb_nodup (data : TitleDatabase) (fields : List String) :
    (keysOf (trim_titledb data fields)).Nodup :=
  trimGo_nodup fields data [] (by simp [keysOf])

theorem filterMap_eq_self {α : Type} (fn : α → Option α) :
    ∀ (l : List α), (∀ p ∈ l, fn p = some p) → l.filterMap fn = l := by
  intro l
  induction l with
  | nil => simp
  | cons x rest ih =>
    intro h
    rw [List.filterMap_cons, h x (List.mem_cons_self _ _),
      ih (fun p hp => h p (List.mem_cons_of_mem _ hp))]

/-- The surviving keys, in input iteration order. -/
theorem keysOf_filterMap_trimEntry (fields : List String) :
    ∀ (data : TitleDatabase),
      keysOf (data.filterMap (trimEntry fields))
        = keysOf (data.filter (fun p => truthyOpt (dictGet p.2 "name"))) := by
  intro data
  induction data with
  | nil => rfl
  | cons p rest ih =>
    rw [List.filterMap_cons, List.filter_cons]
    cases ht : truthyOpt (dictGet p.2 "name") with
    | true =>
      simp only [trimEntry, ht, if_true]
      simpa [keysOf] using ih
    | false =>
      simp only [trimEntry, ht, if_false]
      simpa [keysOf] using ih

/-- For a non-empty input the progress arithmetic never divides by zero:
the interleaved error checks all pass and the loop computes `trimGo`. -/
theorem trimLoopE_eq (fields : List String) (n : Nat) (hn : n ≠ 0) :
    ∀ (data : List (String × TitleRecord)) (count : Nat) (acc : TitleDatabase),
      trimLoopE n fields count data acc = Except.ok (trimGo fields data acc) := by
  intro data
  induction data with
  | nil =>
    intro count acc
    rfl
  | cons q rest ih =>
    intro count acc
    rcases q with ⟨tid, td⟩
    have hmod : (if n > 10 then n / 10 else 1) ≠ 0 := by
      by_cases h10 : n > 10
      · simp only [h10, if_true]
        have : 0 < n / 10 := Nat.div_pos (by omega) (by omega)
        omega
      · simp only [h10, if_false]
        omega
    have hstep : trimGo fields ((tid, td) :: rest) acc
        = trimGo fields rest (if truthyOpt (dictGet td "name") = true
            then dictInsert acc tid (recordComprehension td fields) else acc) := by
      cases ht : truthyOpt (dictGet td "name") with
      | true =>
        rw [trimGo_cons_true fields tid td rest acc ht, if_pos rfl]
      | false =>
        rw [trimGo_cons_false fields tid td rest acc ht, if_neg (by simp)]
    simp only [trimLoopE]
    rw [if_neg hmod, hstep]
    by_cases hc :
        (decide ((count % if n > 10 then n / 10 else 1) = 0) || decide (count = n)) = true
    · rw [if_pos hc, if_neg hn]
      exact ih _ _
    · rw [if_neg hc]
      exact ih _ _

/-- The progress logging never fails: `trim_titledbE` always succeeds with
the pure result. -/
theorem trim_titledbE_eq (data : TitleDatabase) (fields : List String) :
    trim_titledbE data fields = Except.ok (trim_titledb data fields) := by
  cases data with
  | nil => rfl
  | cons p rest =>
    rw [trim_titledbE, trim_titledb]
    exact trimLoopE_eq fields ((p :: rest).length) (by simp) (p :: rest) 1 []

/-- True when a character is not whitespace. -/
def charNoWS (c : Char) : Bool := !c.isWhitespace

/-- True when a string contains no whitespace characters. -/
def strNoWS (s : String) : Bool := s.toList.all charNoWS

/-- JSON string escaping for one character (the cases relevant here:
quote, backslash and the common control characters; any other character is
emitted as itself). -/
def escapeChar (c : Char) : String :=
  if c = '"' then "\\\""
  else if c = '\\' then "\\\\"
  else if c = '\n' then "\\n"
  else if c = '\t' then "\\t"
  else if c = '\r' then "\\r"
  else String.singleton c

/-- Escape every character of a list. -/
def escapeList : List Char → String
  | [] => ""
  | c :: rest => escapeChar c ++ escapeList rest

/-- A JSON string literal: quotes around the escaped contents. -/
def jsonString (s : String) : String := "\"" ++ escapeList s.toList ++ "\""

/-- Decimal digits of a natural number, most significant first. -/
def natDigits (n : Nat) : List Char :=
  if h : n < 10 then [Char.ofNat (48 + n)]
  else natDigits (n / 10) ++ [Char.ofNat (48 + n % 10)]
termination_by n
decreasing_by
  exact Nat.div_lt_self (by omega) (by omega)

/-- Decimal representation of an integer. -/
def intRepr : Int → String
  | Int.ofNat n => String.mk (natDigits n)
  | Int.negSucc n => "-" ++ String.mk (natDigits (n + 1))

/-- Join a list of strings with a separator between consecutive items. -/
def joinSep (sep : String) : List String → String
  | [] => ""
  | [s] => s
  | s :: rest => s ++ sep ++ joinSep sep rest

/-- Modelled from the spec: the serializer used by both scripts is Python's
stdlib `json.dump(new_data, f, separators=(",", ":"))`, whose code is not
part of this repository.  Per the spec it emits a "JSON object, keys in
original iteration order, no extraneous whitespace (minimal separators)":
items joined by a bare comma, keys and values separated by a bare colon,
and no whitespace added anywhere. -/
def serializeJValue : JValue → String
  | JValue.str s => jsonString s
  | JValue.num n => intRepr n
  | JValue.bool b => if b then "true" else "false"
  | JValue.null => "null"
  | JValue.arr xs =>
    "[" ++ joinSep "," (xs.attach.map (fun x => serializeJValue x.1)) ++ "]"
  | JValue.obj kvs =>
    "\x7b" ++ joinSep ","
        (kvs.attach.map (fun p => jsonString p.1.1 ++ ":" ++ serializeJValue p.1.2)) ++ "\x7d"
termination_by v => sizeOf v
decreasing_by
  · have h := List.sizeOf_lt_of_mem x.2
    simp only [JValue.arr.sizeOf_spec]
    omega
  · have h := List.sizeOf_lt_of_mem p.2
    rcases p with ⟨⟨a, b⟩, hp⟩
    simp only [Prod.mk.sizeOf_spec] at h
    simp only [JValue.obj.sizeOf_spec]
    omega

/-- Serialization of the whole database, which `json.dump` receives as an
object of objects. -/
def serializeDb (d : TitleDatabase) : String :=
  serializeJValue (JValue.obj (d.map (fun p => (p.1, JValue.obj p.2))))

/-- Whitespace-freeness of the contents of a JSON value: every string
literal in it (object keys included) has no whitespace characters. -/
def jvalNoWS : JValue → Bool
  | JValue.str s => strNoWS s
  | JValue.num _ => true
  | JValue.bool _ => true
  | JValue.null => true
  | JValue.arr xs => xs.attach.all (fun x => jvalNoWS x.1)
  | JValue.obj kvs => kvs.attach.all (fun p => strNoWS p.1.1 && jvalNoWS p.1.2)
termination_by v => sizeOf v
decreasing_by
  · have h := List.sizeOf_lt_of_mem x.2
    simp only [JValue.arr.sizeOf_spec]
    omega
  · have h := List.sizeOf_lt_of_mem p.2
    rcases p with ⟨⟨a, b⟩, hp⟩
    simp only [Prod.mk.sizeOf_spec] at h
    simp only [JValue.obj.sizeOf_spec]
    omega

/-- Whitespace-freeness of a record's keys and values. -/
def recNoWS (r : TitleRecord) : Bool := r.all (fun q => strNoWS q.1 && jvalNoWS q.2)

/-- Whitespace-freeness of a database: all ids, field names and values. -/
def dbNoWS (d : TitleDatabase) : Bool := d.all (fun p => strNoWS p.1 && recNoWS p.2)

theorem attach_all {α : Type} (l : List α) (f : α → Bool) :
    l.attach.all (fun x => f x.1) = l.all f := by
  rw [Bool.eq_iff_iff, List.all_eq_true, List.all_eq_true]
  constructor
  · intro h a ha
    exact h ⟨a, ha⟩ (List.mem_attach l ⟨a, ha⟩)
  · intro h x _
    exact h x.1 x.2

theorem jvalNoWS_obj (kvs : List (String × JValue)) :
    jvalNoWS (JValue.obj kvs) = kvs.all (fun q => strNoWS q.1 && jvalNoWS q.2) := by
  rw [jvalNoWS]
  exact attach_all kvs (fun q => strNoWS q.1 && jvalNoWS q.2)

theorem jvalNoWS_arr (xs : List JValue) :
    jvalNoWS (JValue.arr xs) = xs.all jvalNoWS := by
  rw [jvalNoWS]
  exact attach_all xs jvalNoWS

theorem strNoWS_append (a b : String) : strNoWS (a ++ b) = (strNoWS a && strNoWS b) := by
  simp [strNoWS, String.toList, String.data_append, List.all_append]

theorem escapeChar_noWS (c : Char) (h : charNoWS c = true) : strNoWS (escapeChar c) = true := by
  rw [escapeChar]
  by_cases h1 : c = '"'
  · simp only [h1, if_true]
    decide
  · rw [if_neg h1]
    by_cases h2 : c = '\\'
    · simp only [h2, if_true]
      decide
    · rw [if_neg h2]
      by_cases h3 : c = '\n'
      · simp only [h3, if_true]
        decide
      · rw [if_neg h3]
        by_cases h4 : c = '\t'
        · simp only [h4, if_true]
          decide
        · rw [if_neg h4]
          by_cases h5 : c = '\r'
          · simp only [h5, if_true]
            decide
          · rw [if_neg h5]
            simpa [strNoWS, String.singleton] using h

theorem escapeList_noWS (l : List Char) (h : ∀ c ∈ l, charNoWS c = true) :
    strNoWS (escapeList l) = true := by
  induction l with
  | nil => decide
  | cons c rest ih =>
    rw [escapeList, strNoWS_append,
      escapeChar_noWS c (h c (List.mem_cons_self _ _)),
      ih (fun g hg => h g (List.mem_cons_of_mem _ hg))]
    rfl

theorem jsonString_noWS (s : String) (h : strNoWS s = true) : strNoWS (jsonString s) = true := by
  rw [jsonString, strNoWS_append, strNoWS_append]
  rw [escapeList_noWS s.toList (fun c hc => List.all_eq_true.mp h c hc)]
  decide

theorem digit_noWS : ∀ d : Nat, d < 10 → charNoWS (Char.ofNat (48 + d)) = true := by decide

theorem natDigits_noWS : ∀ (n : Nat), (natDigits n).all charNoWS = true := by
  intro n
  induction n using Nat.strong_induction_on with
  | _ n ih =>
    rw [natDigits]
    by_cases h : n < 10
    · rw [dif_pos h]
      simp [digit_noWS n h]
    · rw [dif_neg h, List.all_append]
      rw [ih (n / 10) (Nat.div_lt_self (by omega) (by omega))]
      simp [digit_noWS (n % 10) (Nat.mod_lt n (by omega))]

theorem strNoWS_mk (l : List Char) : strNoWS (String.mk l) = l.all charNoWS := rfl

theorem intRepr_noWS (i : Int) : strNoWS (intRepr i) = true := by
  cases i with
  | ofNat n =>
    rw [intRepr, strNoWS_mk]
    exact natDigits_noWS n
  | negSucc n =>
    rw [intRepr, strNoWS_append]
    have h1 : strNoWS (String.mk (natDigits (n + 1))) = true := by
      rw [strNoWS_mk]
      exact natDigits_noWS (n + 1)
    rw [h1]
    decide

theorem joinSep_cons2 (sep s t : String) (rest : List String) :
    joinSep sep (s :: t :: rest) = s ++ sep ++ joinSep sep (t :: rest) := rfl

theorem joinSep_noWS (sep : String) (hsep : strNoWS sep = true) :
    ∀ (parts : List String), (∀ s ∈ parts, strNoWS s = true) →
      strNoWS (joinSep sep parts) = true := by
  intro parts
  induction parts with
  | nil =>
    intro _
    rw [show joinSep sep [] = "" from rfl]
    decide
  | cons s rest ih =>
    intro h
    cases rest with
    | nil => exact h s (List.mem_cons_self _ _)
    | cons t rest2 =>
      rw [joinSep_cons2, strNoWS_append, strNoWS_append]
      rw [h s (List.mem_cons_self _ _), hsep,
        ih (fun g hg => h g (List.mem_cons_of_mem _ hg))]
      rfl

theorem serializeJValue_str (s : String) : serializeJValue (JValue.str s) = jsonString s := by
  rw [serializeJValue]

theorem serializeJValue_num (n : Int) : serializeJValue (JValue.num n) = intRepr n := by
  rw [serializeJValue]

theorem serializeJValue_bool (b : Bool) :
    serializeJValue (JValue.bool b) = if b then "true" else "false" := by
  rw [serializeJValue]

theorem serializeJValue_null : serializeJValue JValue.null = "null" := by
  rw [serializeJValue]

theorem serializeJValue_arr (xs : List JValue) :
    serializeJValue (JValue.arr xs)
      = "[" ++ joinSep "," (xs.attach.map (fun x => serializeJValue x.1)) ++ "]" := by
  rw [serializeJValue]

theorem serializeJValue_obj (kvs : List (String × JValue)) :
    serializeJValue (JValue.obj kvs)
      = "\x7b" ++ joinSep ","
          (kvs.attach.map (fun p => jsonString p.1.1 ++ ":" ++ serializeJValue p.1.2))
        ++ "\x7d" := by
  rw [serializeJValue]

theorem serializeJValue_noWS_aux :
    ∀ (fuel : Nat) (v : JValue), sizeOf v ≤ fuel → jvalNoWS v = true →
      strNoWS (serializeJValue v) = true := by
  intro fuel
  induction fuel with
  | zero =>
    intro v hv _
    exfalso
    cases v <;> simp_arith at hv
  | succ fuel ih =>
    intro v hv hws
    cases v with
    | str s =>
      rw [serializeJValue_str]
      exact jsonString_noWS s (by simpa [jvalNoWS] using hws)
    | num n =>
      rw [serializeJValue_num]
      exact intRepr_noWS n
    | bool b =>
      rw [serializeJValue_bool]
      cases b <;> decide
    | null =>
      rw [serializeJValue_null]
      decide
    | arr xs =>
      rw [serializeJValue_arr, strNoWS_append, strNoWS_append]
      have hparts : ∀ s ∈ xs.attach.map (fun x => serializeJValue x.1), strNoWS s = true := by
        intro s hs
        rcases List.mem_map.mp hs with ⟨x, _, he⟩
        have hx : x.1 ∈ xs := x.2
        have hsize : sizeOf x.1 ≤ fuel := by
          have h1 := List.sizeOf_lt_of_mem hx
          have h2 : sizeOf (JValue.arr xs) = 1 + sizeOf xs := by
            simp [JValue.arr.sizeOf_spec]
          omega
        have hwsx : jvalNoWS x.1 = true := by
          rw [jvalNoWS_arr] at hws
          exact List.all_eq_true.mp hws x.1 hx
        rw [← he]
        exact ih x.1 hsize hwsx
      rw [joinSep_noWS "," (by decide) _ hparts]
      decide
    | obj kvs =>
      rw [serializeJValue_obj, strNoWS_append, strNoWS_append]
      have hall := (jvalNoWS_obj kvs) ▸ hws
      have hparts : ∀ s ∈ kvs.attach.map
          (fun p => jsonString p.1.1 ++ ":" ++ serializeJValue p.1.2), strNoWS s = true := by
        intro s hs
        rcases List.mem_map.mp hs with ⟨p, _, he⟩
        have hp : p.1 ∈ kvs := p.2
        have hq := List.all_eq_true.mp hall p.1 hp
        have hk : strNoWS p.1.1 = true := (Bool.and_eq_true_iff.mp hq).1
        have hv2 : jvalNoWS p.1.2 = true := (Bool.and_eq_true_iff.mp hq).2
        have hsize : sizeOf p.1.2 ≤ fuel := by
          have h1 := List.sizeOf_lt_of_mem hp
          have h2 : sizeOf (JValue.obj kvs) = 1 + sizeOf kvs := by
            simp [JValue.obj.sizeOf_spec]
          have h3 : sizeOf p.1 = 1 + sizeOf p.1.1 + sizeOf p.1.2 := by
            rcases p with ⟨⟨a, b⟩, hab⟩
            simp [Prod.mk.sizeOf_spec]
          omega
        rw [← he, strNoWS_append, strNoWS_append, jsonString_noWS _ hk, ih p.1.2 hsize hv2]
        decide
      rw [joinSep_noWS "," (by decide) _ hparts]
      decide

/-- The serialized form of a whitespace-free JSON value contains no
whitespace characters: the separators are a bare comma and colon and
nothing else is inserted. -/
theorem serializeJValue_noWS (v : JValue) (h : jvalNoWS v = true) :
    strNoWS (serializeJValue v) = true :=
  serializeJValue_noWS_aux (sizeOf v) v le_rfl h

/-- The projection keeps only pairs of the source record, so it preserves
whitespace-freeness. -/
theorem recNoWS_projectFields (td : TitleRecord) (l : List String)
    (h : recNoWS td = true) : recNoWS (projectFields td l) = true := by
  rw [recNoWS, List.all_eq_true]
  intro q hq
  rcases q with ⟨g, v⟩
  have hget : dictGet (projectFields td l) g = some v :=
    dictGet_eq_some_of_nodup (nodup_keysOf_projectFields td l) hq
  rw [projectFields_get] at hget
  by_cases hm : g ∈ l
  · rw [if_pos hm] at hget
    exact List.all_eq_true.mp h (g, v) (dictGet_mem hget)
  · rw [if_neg hm] at hget
    exact absurd hget (by simp)

/-- Trimming preserves whitespace-freeness of the database. -/
theorem dbNoWS_trim (data : TitleDatabase) (fields : List String)
    (h : dbNoWS data = true) : dbNoWS (trim_titledb data fields) = true := by
  rw [dbNoWS, List.all_eq_true]
  intro p hp
  rcases trim_titledb_mem data fields p hp with ⟨td, hmem, _, hrec⟩
  have hsrc := List.all_eq_true.mp h (p.1, td) hmem
  have hid : strNoWS p.1 = true := (Bool.and_eq_true_iff.mp hsrc).1
  have htd : recNoWS td = true := (Bool.and_eq_true_iff.mp hsrc).2
  rw [hrec, recordComprehension_eq]
  simp only [hid, Bool.true_and]
  exact recNoWS_projectFields td _ htd

/-- The serialized database of a whitespace-free database has no whitespace
characters. -/
theorem serializeDb_noWS (d : TitleDatabase) (h : dbNoWS d = true) :
    strNoWS (serializeDb d) = true := by
  rw [serializeDb]
  apply serializeJValue_noWS
  rw [jvalNoWS_obj, List.all_eq_true]
  intro q hq
  rcases List.mem_map.mp hq with ⟨p, hp, he⟩
  have hsrc := List.all_eq_true.mp h p hp
  rw [← he]
  simp only []
  rw [jvalNoWS_obj]
  have hid : strNoWS p.1 = true := (Bool.and_eq_true_iff.mp hsrc).1
  have hrec : recNoWS p.2 = true := (Bool.and_eq_true_iff.mp hsrc).2
  rw [hid, recNoWS] at *
  simp [hrec]

theorem truthyOpt_isSome {o : Option JValue} (h : truthyOpt o = true) : o.isSome = true := by
  cases o with
  | none => exact absurd h (by simp [truthyOpt])
  | some v => rfl

theorem mem_unique_of_nodup {α : Type} {d : List (String × α)} (hnd : (keysOf d).Nodup)
    {k : String} {a b : α} (ha : (k, a) ∈ d) (hb : (k, b) ∈ d) : a = b := by
  have h1 := dictGet_eq_some_of_nodup hnd ha
  have h2 := dictGet_eq_some_of_nodup hnd hb
  rw [h1] at h2
  exact Option.some.inj h2

theorem mem_dedupFirstGo :
    ∀ (l : List String) (seen : List String) (g : String),
      g ∈ dedupFirstGo seen l ↔ (g ∈ l ∧ g ∉ seen) := by
  intro l
  induction l with
  | nil =>
    intro seen g
    simp [dedupFirstGo]
  | cons x rest ih =>
    intro seen g
    rw [dedupFirstGo]
    by_cases hx : seen.contains x
    · rw [if_pos hx, ih seen g]
      have hxs : x ∈ seen := by simpa using hx
      constructor
      · rintro ⟨h1, h2⟩
        exact ⟨List.mem_cons_of_mem _ h1, h2⟩
      · rintro ⟨h1, h2⟩
        rcases List.mem_cons.mp h1 with h3 | h3
        · exact absurd (h3 ▸ hxs) h2
        · exact ⟨h3, h2⟩
    · rw [if_neg hx]
      have hxs : x ∉ seen := by simpa using hx
      constructor
      · intro h1
        rcases List.mem_cons.mp h1 with h3 | h3
        · exact ⟨h3 ▸ List.mem_cons_self x rest, h3 ▸ hxs⟩
        · rcases (ih (x :: seen) g).mp h3 with ⟨h4, h5⟩
          refine ⟨List.mem_cons_of_mem _ h4, fun h6 => h5 (List.mem_cons_of_mem _ h6)⟩
      · rintro ⟨h1, h2⟩
        rcases List.mem_cons.mp h1 with h3 | h3
        · exact h3 ▸ List.mem_cons_self x _
        · by_cases h4 : g = x
          · exact h4 ▸ List.mem_cons_self x _
          · refine List.mem_cons_of_mem _ ((ih (x :: seen) g).mpr ⟨h3, ?_⟩)
            intro h5
            rcases List.mem_cons.mp h5 with h6 | h6
            · exact h4 h6
            · exact h2 h6

theorem mem_dedupFirst (l : List String) (g : String) : g ∈ dedupFirst l ↔ g ∈ l := by
  rw [dedupFirst, mem_dedupFirstGo]
  simp

/-- When a requested field is unknown, validation reports exactly the
unknown ones. -/
theorem validate_fields_error (fields : List String) (f : String)
    (hf : f ∈ fields) (hinv : f ∉ VALID_FIELDS) :
    ∃ bad, validate_fields fields = Except.error bad
      ∧ ∀ g, (g ∈ bad ↔ (g ∈ fields ∧ g ∉ VALID_FIELDS)) := by
  have hne : fields.isEmpty = false := by
    cases fields with
    | nil => exact absurd hf (by simp)
    | cons a b => rfl
  have hnall : fields.all (fun field => VALID_FIELDS.contains field) = false := by
    rw [List.all_eq_false]
    exact ⟨f, hf, by simpa using hinv⟩
  refine ⟨dedupFirst (fields.filter (fun field => !(VALID_FIELDS.contains field))), ?_, ?_⟩
  · rw [validate_fields, if_pos (by rw [hne, hnall]; rfl)]
  · intro g
    rw [mem_dedupFirst, List.mem_filter]
    simp

/-- Characterization of the records retained by `trim_titledb` for a
non-empty field list: keys are the requested fields present in the source
record, each with its original value. -/
theorem trim_record_chars (data : TitleDatabase) (fields : List String) (hne : fields ≠ []) :
    ∀ tid rec, (tid, rec) ∈ trim_titledb data fields →
      ∃ td, (tid, td) ∈ data ∧ truthyOpt (dictGet td "name") = true ∧
        (∀ g, g ∈ keysOf rec ↔ (g ∈ fields ∧ g ∈ keysOf td)) ∧
        (∀ g, g ∈ keysOf rec → dictGet rec g = dictGet td g) := by
  intro tid rec hp
  rcases trim_titledb_mem data fields (tid, rec) hp with ⟨td, hmem, hname, hrec⟩
  have hmem2 : (tid, td) ∈ data := hmem
  have hrecE : rec = recordComprehension td fields := hrec
  have hemp : fields.isEmpty = false := by
    cases fields with
    | nil => exact absurd rfl hne
    | cons a b => rfl
  have hrec2 : rec = projectFields td fields := by
    rw [hrecE, recordComprehension_eq, if_neg (by simp [hemp])]
  refine ⟨td, hmem2, hname, ?_, ?_⟩
  · intro g
    rw [hrec2]
    exact mem_keysOf_projectFields td fields g
  · intro g hg
    rw [hrec2] at hg ⊢
    rw [projectFields_get, if_pos ((mem_keysOf_projectFields td fields g).mp hg).1]

/-- C7: on the documented example input with fields `["name", "size"]` the
reducer returns exactly the documented output: record `"b"` is dropped for
lacking a name, field `"extra"` is dropped because it was not requested. -/
theorem C7_concrete_example :
    trim_titledb
      [("a", [("name", JValue.str "X"), ("size", JValue.num 1), ("extra", JValue.str "y")]),
       ("b", [("size", JValue.num 2)])]
      ["name", "size"]
    = [("a", [("name", JValue.str "X"), ("size", JValue.num 1)])] := rfl

/-- C8: on an empty input database the reducer succeeds for every field
selection — the progress arithmetic raises no `ZeroDivisionError` — and
returns the empty mapping. -/
theorem C8_empty_database (fields : List String) :
    trim_titledbE [] fields = Except.ok [] ∧ trim_titledb [] fields = [] :=
  ⟨rfl, rfl⟩

/-- C5: when a non-empty validated field list is supplied, every retained
output record has exactly the requested fields that exist on its source
record, each mapped to its original value. -/
theorem C5_requested_fields (data : TitleDatabase) (fields : List String)
    (hne : fields ≠ []) (_hval : ∀ f ∈ fields, f ∈ VALID_FIELDS) :
    ∀ tid rec, (tid, rec) ∈ trim_titledb data fields →
      ∃ td, (tid, td) ∈ data ∧ truthyOpt (dictGet td "name") = true ∧
        (∀ g, g ∈ keysOf rec ↔ (g ∈ fields ∧ g ∈ keysOf td)) ∧
        (∀ g, g ∈ keysOf rec → dictGet rec g = dictGet td g) :=
  trim_record_chars data fields hne

/-- Witness for C5 at the example database. -/
theorem C5_requested_fields_witness :
    (["name", "size"] ≠ ([] : List String))
    ∧ (∀ f ∈ ["name", "size"], f ∈ VALID_FIELDS)
    ∧ ∃ td, ("a", td) ∈
          [("a", [("name", JValue.str "X"), ("size", JValue.num 1), ("extra", JValue.str "y")]),
           ("b", [("size", JValue.num 2)])]
        ∧ truthyOpt (dictGet td "name") = true
        ∧ (∀ g, g ∈ keysOf [("name", JValue.str "X"), ("size", JValue.num 1)]
            ↔ (g ∈ ["name", "size"] ∧ g ∈ keysOf td))
        ∧ (∀ g, g ∈ keysOf [("name", JValue.str "X"), ("size", JValue.num 1)] →
            dictGet [("name", JValue.str "X"), ("size", JValue.num 1)] g = dictGet td g) :=
  ⟨by decide, by decide,
    C5_requested_fields
      [("a", [("name", JValue.str "X"), ("size", JValue.num 1), ("extra", JValue.str "y")]),
       ("b", [("size", JValue.num 2)])]
      ["name", "size"] (by decide) (by decide)
      "a" [("name", JValue.str "X"), ("size", JValue.num 1)]
      (by
        rw [show trim_titledb
            [("a", [("name", JValue.str "X"), ("size", JValue.num 1), ("extra", JValue.str "y")]),
             ("b", [("size", JValue.num 2)])] ["name", "size"]
          = [("a", [("name", JValue.str "X"), ("size", JValue.num 1)])] from rfl]
        exact List.mem_singleton.mpr rfl)⟩

theorem recordComprehension_empty (td : TitleRecord) :
    recordComprehension td [] = projectFields td (keysOf td) := by
  rw [recordComprehension_eq]
  rfl

theorem recordComprehension_nonempty (td : TitleRecord) (fields : List String)
    (h : fields.isEmpty = false) :
    recordComprehension td fields = projectFields td fields := by
  rw [recordComprehension_eq, if_neg (by simp [h])]

/-- C4 counterexample: with the valid field selection `["size"]` (which
omits `"name"`), re-running the reducer on its own output drops the record
that survived the first run, so the reduction is not idempotent for every
field selection. -/
theorem C4_counterexample :
    trim_titledb
        (trim_titledb [("a", [("name", JValue.str "X"), ("size", JValue.num 1)])] ["size"])
        ["size"]
      ≠ trim_titledb [("a", [("name", JValue.str "X"), ("size", JValue.num 1)])] ["size"] := by
  intro h
  exact List.noConfusion h

/-- C4 amended: the reduction is idempotent for every field selection that
is empty or contains `"name"` (in particular for the default selection
`VALID_FIELDS`); a non-empty selection omitting `"name"` strips the name
field, so the second run can drop every record. -/
theorem C4_amended_idempotent (data : TitleDatabase) (fields : List String)
    (h : fields = [] ∨ "name" ∈ fields) :
    trim_titledb (trim_titledb data fields) fields = trim_titledb data fields := by
  have hnodup : (keysOf (trim_titledb data fields)).Nodup := trim_titledb_nodup data fields
  rw [trim_titledb_eq_filterMap (trim_titledb data fields) fields hnodup]
  apply filterMap_eq_self
  intro p hp
  rcases trim_titledb_mem data fields p hp with ⟨td, hmem, hname, hrec⟩
  have hrecE : p.2 = recordComprehension td fields := hrec
  have hname2 : truthyOpt (dictGet p.2 "name") = true := by
    rcases h with h0 | hmemf
    · subst h0
      rw [hrecE, recordComprehension_empty, projectFields_get,
        if_pos (dictGet_isSome_iff td "name" |>.mp (truthyOpt_isSome hname))]
      exact hname
    · have hemp : fields.isEmpty = false := by
        cases fields with
        | nil => exact absurd hmemf (by simp)
        | cons a b => rfl
      rw [hrecE, recordComprehension_nonempty td fields hemp, projectFields_get, if_pos hmemf]
      exact hname
  have hproj : recordComprehension p.2 fields = p.2 := by
    rcases h with h0 | hmemf
    · subst h0
      rw [hrecE, recordComprehension_empty, recordComprehension_empty]
      exact projectFields_keysOf_self _ (nodup_keysOf_projectFields td _)
    · have hemp : fields.isEmpty = false := by
        cases fields with
        | nil => exact absurd hmemf (by simp)
        | cons a b => rfl
      rw [hrecE, recordComprehension_nonempty td fields hemp,
        recordComprehension_nonempty _ fields hemp]
      exact projectFields_projectFields td fields
  rw [trimEntry, if_pos hname2, hproj]

/-- Witness for the amended C4. -/
theorem C4_amended_idempotent_witness :
    trim_titledb
        (trim_titledb [("a", [("name", JValue.str "X"), ("size", JValue.num 1)])] ["name"])
        ["name"]
      = trim_titledb [("a", [("name", JValue.str "X"), ("size", JValue.num 1)])] ["name"] :=
  C4_amended_idempotent [("a", [("name", JValue.str "X"), ("size", JValue.num 1)])] ["name"]
    (Or.inr (List.mem_singleton.mpr rfl))

/-- C1 counterexample: with the field selection `["size"]` the sole output
record has no `"name"` key at all, so its `"name"` value is not truthy —
the claimed invariant fails for field selections that omit `"name"`. -/
theorem C1_counterexample :
    trim_titledb [("a", [("name", JValue.str "X"), ("size", JValue.num 1)])] ["size"]
      = [("a", [("size", JValue.num 1)])]
    ∧ truthyOpt (dictGet [("size", JValue.num 1)] "name") = false :=
  ⟨rfl, rfl⟩

/-- C1 amended: every output record stems from an input record whose
`"name"` is truthy; when the input keys are distinct, any input record with
a missing or falsy `"name"` is absent from the output; and the output
record itself carries a truthy `"name"` whenever the field selection is
empty or contains `"name"`. -/
theorem C1_amended_name_invariant (data : TitleDatabase) (fields : List String)
    (hnd : (keysOf data).Nodup) :
    (∀ tid rec, (tid, rec) ∈ trim_titledb data fields →
        ∃ td, (tid, td) ∈ data ∧ truthyOpt (dictGet td "name") = true)
    ∧ ((fields = [] ∨ "name" ∈ fields) → ∀ tid rec, (tid, rec) ∈ trim_titledb data fields →
        truthyOpt (dictGet rec "name") = true)
    ∧ (∀ tid td, (tid, td) ∈ data → truthyOpt (dictGet td "name") = false →
        tid ∉ keysOf (trim_titledb data fields)) := by
  refine ⟨?_, ?_, ?_⟩
  · intro tid rec hp
    rcases trim_titledb_mem data fields (tid, rec) hp with ⟨td, hmem, hname, _⟩
    exact ⟨td, hmem, hname⟩
  · intro h tid rec hp
    rcases trim_titledb_mem data fields (tid, rec) hp with ⟨td, _, hname, hrec⟩
    have hrecE : rec = recordComprehension td fields := hrec
    rcases h with h0 | hmemf
    · subst h0
      rw [hrecE, recordComprehension_empty, projectFields_get,
        if_pos (dictGet_isSome_iff td "name" |>.mp (truthyOpt_isSome hname))]
      exact hname
    · have hemp : fields.isEmpty = false := by
        cases fields with
        | nil => exact absurd hmemf (by simp)
        | cons a b => rfl
      rw [hrecE, recordComprehension_nonempty td fields hemp, projectFields_get, if_pos hmemf]
      exact hname
  · intro tid td hmem hfalse hkey
    rw [trim_titledb_eq_filterMap data fields hnd, keysOf_filterMap_trimEntry] at hkey
    rcases List.mem_map.mp hkey with ⟨q, hq, hfst⟩
    have hq2 := List.mem_filter.mp hq
    have hq3 : (tid, q.2) ∈ data := by
      rcases q with ⟨qk, qv⟩
      rw [show qk = tid from hfst] at hq2
      exact hq2.1
    have : q.2 = td := mem_unique_of_nodup hnd hq3 hmem
    rw [this] at hq2
    rw [hq2.2] at hfalse
    exact Bool.true_eq_false ▸ hfalse

/-- Witness for the amended C1. -/
theorem C1_amended_name_invariant_witness :
    (∀ tid rec,
        (tid, rec) ∈ trim_titledb
          [("a", [("name", JValue.str "X")]), ("b", [("size", JValue.num 2)])] ["name"] →
        ∃ td, (tid, td) ∈ [("a", [("name", JValue.str "X")]), ("b", [("size", JValue.num 2)])]
          ∧ truthyOpt (dictGet td "name") = true)
    ∧ "b" ∉ keysOf (trim_titledb
        [("a", [("name", JValue.str "X")]), ("b", [("size", JValue.num 2)])] ["name"]) := by
  have h := C1_amended_name_invariant
    [("a", [("name", JValue.str "X")]), ("b", [("size", JValue.num 2)])] ["name"] (by decide)
  refine ⟨h.1, h.2.2 "b" [("size", JValue.num 2)] ?_ rfl⟩
  exact List.mem_cons_of_mem _ (List.mem_singleton.mpr rfl)

theorem tinyMain_none (data : TitleDatabase) :
    tinyMain none data
      = ⟨true, 0, none, some (trim_titledb data VALID_FIELDS)⟩ := by
  have h1 : tinyMain none data
      = match trim_titledbE data VALID_FIELDS with
        | Except.error _ => ⟨true, 1, none, none⟩
        | Except.ok new_data => ⟨true, 0, none, some new_data⟩ := rfl
  rw [h1, trim_titledbE_eq]

theorem tinyMain_some_ok (fs : List String) (data : TitleDatabase)
    (hok : validate_fields fs = Except.ok ()) :
    tinyMain (some fs) data = ⟨true, 0, none, some (trim_titledb data fs)⟩ := by
  have h1 : tinyMain (some fs) data
      = match validate_fields fs with
        | Except.error bad => ⟨false, 1, some bad, none⟩
        | Except.ok _ =>
          match trim_titledbE data fs with
          | Except.error _ => ⟨true, 1, none, none⟩
          | Except.ok new_data => ⟨true, 0, none, some new_data⟩ := rfl
  rw [h1, hok, trim_titledbE_eq]

theorem tinyMain_some_err (fs : List String) (data : TitleDatabase) (bad : List String)
    (herr : validate_fields fs = Except.error bad) :
    tinyMain (some fs) data = ⟨false, 1, some bad, none⟩ := by
  have h1 : tinyMain (some fs) data
      = match validate_fields fs with
        | Except.error bad => ⟨false, 1, some bad, none⟩
        | Except.ok _ =>
          match trim_titledbE data fs with
          | Except.error _ => ⟨true, 1, none, none⟩
          | Except.ok new_data => ⟨true, 0, none, some new_data⟩ := rfl
  rw [h1, herr]

/-- C2 counterexample: with `-f` omitted the script substitutes
`VALID_FIELDS` for the field list, so the field `"weird"` — present on the
input record but not in the allow-list — is dropped, and the output
record's key set differs from the input record's. -/
theorem C2_counterexample :
    (tinyMain none [("a", [("name", JValue.str "X"), ("weird", JValue.num 1)])]).written
      = some [("a", [("name", JValue.str "X")])]
    ∧ keysOf [("name", JValue.str "X")]
        ≠ keysOf [("name", JValue.str "X"), ("weird", JValue.num 1)] := by
  constructor
  · rw [tinyMain_none]
    rfl
  · decide

/-- C2 amended: when `-f` is omitted, each retained record keeps exactly
its original fields that belong to `VALID_FIELDS`, with their original
values; fields outside the allow-list are dropped (the key set equals the
original key set only when every original field is in the allow-list). -/
theorem C2_amended_default_fields (data : TitleDatabase) :
    (tinyMain none data).written = some (trim_titledb data VALID_FIELDS)
    ∧ ∀ tid rec, (tid, rec) ∈ trim_titledb data VALID_FIELDS →
        ∃ td, (tid, td) ∈ data ∧ truthyOpt (dictGet td "name") = true ∧
          (∀ g, g ∈ keysOf rec ↔ (g ∈ VALID_FIELDS ∧ g ∈ keysOf td)) ∧
          (∀ g, g ∈ keysOf rec → dictGet rec g = dictGet td g) := by
  constructor
  · rw [tinyMain_none]
  · exact trim_record_chars data VALID_FIELDS (by decide)

/-- Witness for the amended C2. -/
theorem C2_amended_default_fields_witness :
    (tinyMain none [("a", [("name", JValue.str "X"), ("weird", JValue.num 1)])]).written
      = some (trim_titledb [("a", [("name", JValue.str "X"), ("weird", JValue.num 1)])]
          VALID_FIELDS)
    ∧ ∃ td, ("a", td) ∈ [("a", [("name", JValue.str "X"), ("weird", JValue.num 1)])]
        ∧ truthyOpt (dictGet td "name") = true
        ∧ (∀ g, g ∈ keysOf [("name", JValue.str "X")] ↔ (g ∈ VALID_FIELDS ∧ g ∈ keysOf td))
        ∧ (∀ g, g ∈ keysOf [("name", JValue.str "X")] →
            dictGet [("name", JValue.str "X")] g = dictGet td g) := by
  have h := C2_amended_default_fields [("a", [("name", JValue.str "X"), ("weird", JValue.num 1)])]
  refine ⟨h.1, h.2 "a" [("name", JValue.str "X")] ?_⟩
  rw [show trim_titledb [("a", [("name", JValue.str "X"), ("weird", JValue.num 1)])] VALID_FIELDS
      = [("a", [("name", JValue.str "X")])] from rfl]
  exact List.mem_singleton.mpr rfl

/-- C3: when any requested field is not in the allow-list, the run fails
before any processing — the input file is never read, nothing is written,
the exit status is 1, and exactly the unrecognized field names are
reported. -/
theorem C3_invalid_fields_abort (fs : List String) (data : TitleDatabase) (f : String)
    (hf : f ∈ fs) (hinv : f ∉ VALID_FIELDS) :
    (tinyMain (some fs) data).readHappened = false
    ∧ (tinyMain (some fs) data).exitCode = 1
    ∧ (tinyMain (some fs) data).written = none
    ∧ ∃ bad, (tinyMain (some fs) data).reported = some bad
        ∧ ∀ g, (g ∈ bad ↔ (g ∈ fs ∧ g ∉ VALID_FIELDS)) := by
  rcases validate_fields_error fs f hf hinv with ⟨bad, herr, hmem⟩
  rw [tinyMain_some_err fs data bad herr]
  exact ⟨rfl, rfl, rfl, bad, rfl, hmem⟩

/-- Witness for C3. -/
theorem C3_invalid_fields_abort_witness :
    ("notAField" ∈ ["notAField"]) ∧ ("notAField" ∉ VALID_FIELDS)
    ∧ ((tinyMain (some ["notAField"]) [("a", [("name", JValue.str "X")])]).readHappened = false
      ∧ (tinyMain (some ["notAField"]) [("a", [("name", JValue.str "X")])]).exitCode = 1
      ∧ (tinyMain (some ["notAField"]) [("a", [("name", JValue.str "X")])]).written = none
      ∧ ∃ bad, (tinyMain (some ["notAField"]) [("a", [("name", JValue.str "X")])]).reported
            = some bad
          ∧ ∀ g, (g ∈ bad ↔ (g ∈ ["notAField"] ∧ g ∉ VALID_FIELDS))) :=
  ⟨by decide, by decide,
    C3_invalid_fields_abort ["notAField"] [("a", [("name", JValue.str "X")])] "notAField"
      (by decide) (by decide)⟩

/-- C9: an explicitly empty `-f` list passes validation and makes the
reducer keep every original field of each retained record (the Python
comprehension falls back to the record's own keys), unlike omitting `-f`,
which substitutes `VALID_FIELDS` and filters unknown fields out. -/
theorem C9_empty_fields_behaviour (data : TitleDatabase) :
    validate_fields [] = Except.ok ()
    ∧ (tinyMain (some []) data).written = some (trim_titledb data [])
    ∧ (∀ tid rec, (tid, rec) ∈ trim_titledb data [] →
        ∃ td, (tid, td) ∈ data ∧ truthyOpt (dictGet td "name") = true ∧
          (∀ g, g ∈ keysOf rec ↔ g ∈ keysOf td) ∧
          (∀ g, g ∈ keysOf rec → dictGet rec g = dictGet td g))
    ∧ (tinyMain (some []) [("a", [("name", JValue.str "X"), ("weird", JValue.num 1)])]).written
        = some [("a", [("name", JValue.str "X"), ("weird", JValue.num 1)])]
    ∧ (tinyMain none [("a", [("name", JValue.str "X"), ("weird", JValue.num 1)])]).written
        = some [("a", [("name", JValue.str "X")])] := by
  refine ⟨rfl, ?_, ?_, ?_, ?_⟩
  · rw [tinyMain_some_ok [] data rfl]
  · intro tid rec hp
    rcases trim_titledb_mem data [] (tid, rec) hp with ⟨td, hmem, hname, hrec⟩
    have hmem2 : (tid, td) ∈ data := hmem
    have hrecE : rec = recordComprehension td [] := hrec
    have hrec2 : rec = projectFields td (keysOf td) := by
      rw [hrecE, recordComprehension_empty]
    refine ⟨td, hmem2, hname, ?_, ?_⟩
    · intro g
      rw [hrec2, mem_keysOf_projectFields]
      simp
    · intro g hg
      rw [hrec2] at hg ⊢
      rw [projectFields_get, if_pos ((mem_keysOf_projectFields td _ g).mp hg).1]
  · rw [tinyMain_some_ok [] _ rfl]
    rfl
  · rw [tinyMain_none]
    rfl

/-- Witness for C9. -/
theorem C9_empty_fields_behaviour_witness :
    validate_fields [] = Except.ok ()
    ∧ ∃ td, ("a", td) ∈ [("a", [("name", JValue.str "X"), ("weird", JValue.num 1)])]
        ∧ truthyOpt (dictGet td "name") = true
        ∧ (∀ g, g ∈ keysOf [("name", JValue.str "X"), ("weird", JValue.num 1)] ↔ g ∈ keysOf td)
        ∧ (∀ g, g ∈ keysOf [("name", JValue.str "X"), ("weird", JValue.num 1)] →
            dictGet [("name", JValue.str "X"), ("weird", JValue.num 1)] g = dictGet td g) := by
  have h := C9_empty_fields_behaviour [("a", [("name", JValue.str "X"), ("weird", JValue.num 1)])]
  refine ⟨h.1, h.2.2.1 "a" [("name", JValue.str "X"), ("weird", JValue.num 1)] ?_⟩
  rw [show trim_titledb [("a", [("name", JValue.str "X"), ("weird", JValue.num 1)])] []
      = [("a", [("name", JValue.str "X"), ("weird", JValue.num 1)])] from rfl]
  exact List.mem_singleton.mpr rfl

theorem lookupOrKeyError_some (v : TitleRecord) (f : String) (x : JValue)
    (h : dictGet v f = some x) : lookupOrKeyError v f = Except.ok x := by
  rw [lookupOrKeyError, h]

theorem lookupOrKeyError_none (v : TitleRecord) (f : String)
    (h : dictGet v f = none) : lookupOrKeyError v f = Except.error ("KeyError: " ++ f) := by
  rw [lookupOrKeyError, h]

/-- If the `src/trim.py` dict literal was built successfully, the source
record contains all six hardcoded fields. -/
theorem buildTrimPyRecord_ok_keys (v : TitleRecord) (r : TitleRecord)
    (h : buildTrimPyRecord v = Except.ok r) :
    ∀ f ∈ sixFields, (dictGet v f).isSome = true := by
  rw [buildTrimPyRecord] at h
  cases h1 : dictGet v "description" with
  | none =>
    rw [lookupOrKeyError_none v _ h1] at h
    exact Except.noConfusion h
  | some de =>
  rw [lookupOrKeyError_some v _ de h1] at h
  cases h2 : dictGet v "iconUrl" with
  | none =>
    rw [lookupOrKeyError_none v _ h2] at h
    exact Except.noConfusion h
  | some ic =>
  rw [lookupOrKeyError_some v _ ic h2] at h
  cases h3 : dictGet v "id" with
  | none =>
    rw [lookupOrKeyError_none v _ h3] at h
    exact Except.noConfusion h
  | some idv =>
  rw [lookupOrKeyError_some v _ idv h3] at h
  cases h4 : dictGet v "name" with
  | none =>
    rw [lookupOrKeyError_none v _ h4] at h
    exact Except.noConfusion h
  | some nm =>
  rw [lookupOrKeyError_some v _ nm h4] at h
  cases h5 : dictGet v "releaseDate" with
  | none =>
    rw [lookupOrKeyError_none v _ h5] at h
    exact Except.noConfusion h
  | some rd =>
  rw [lookupOrKeyError_some v _ rd h5] at h
  cases h6 : dictGet v "size" with
  | none =>
    rw [lookupOrKeyError_none v _ h6] at h
    exact Except.noConfusion h
  | some sz =>
  intro f hf
  rcases (by simpa [sixFields] using hf :
      f = "description" ∨ f = "iconUrl" ∨ f = "id" ∨ f = "name" ∨ f = "releaseDate"
        ∨ f = "size") with h0 | h0 | h0 | h0 | h0 | h0
  · rw [h0, h1]; rfl
  · rw [h0, h2]; rfl
  · rw [h0, h3]; rfl
  · rw [h0, h4]; rfl
  · rw [h0, h5]; rfl
  · rw [h0, h6]; rfl

theorem trimPyGo_cons_skip (k : String) (v : TitleRecord)
    (rest : List (String × TitleRecord)) (acc : TitleDatabase)
    (h : truthyOpt (dictGet v "name") = false) :
    trimPyGo ((k, v) :: rest) acc = trimPyGo rest acc := by
  rw [trimPyGo, if_neg (by simp [h])]

theorem trimPyGo_cons_err (k : String) (v : TitleRecord)
    (rest : List (String × TitleRecord)) (acc : TitleDatabase) (e : String)
    (hname : truthyOpt (dictGet v "name") = true)
    (herr : buildTrimPyRecord v = Except.error e) :
    trimPyGo ((k, v) :: rest) acc = Except.error e := by
  rw [trimPyGo, if_pos hname, herr]

theorem trimPyGo_cons_ok (k : String) (v : TitleRecord)
    (rest : List (String × TitleRecord)) (acc : TitleDatabase) (r : TitleRecord)
    (hname : truthyOpt (dictGet v "name") = true)
    (hok : buildTrimPyRecord v = Except.ok r) :
    trimPyGo ((k, v) :: rest) acc = trimPyGo rest (dictInsert acc k r) := by
  rw [trimPyGo, if_pos hname, hok]

/-- A record with a truthy name but a missing hardcoded field makes the
whole `src/trim.py` loop raise. -/
theorem trimPyGo_error :
    ∀ (data : List (String × TitleRecord)) (acc : TitleDatabase),
      (∃ k v f, (k, v) ∈ data ∧ truthyOpt (dictGet v "name") = true
        ∧ f ∈ sixFields ∧ dictGet v f = none) →
      ∃ e, trimPyGo data acc = Except.error e := by
  intro data
  induction data with
  | nil =>
    intro acc h
    rcases h with ⟨k, v, f, hmem, _, _, _⟩
    exact absurd hmem (by simp)
  | cons q rest ih =>
    intro acc h
    rcases q with ⟨k0, v0⟩
    rcases h with ⟨k, v, f, hmem, hname, hf, hnone⟩
    cases ht : truthyOpt (dictGet v0 "name") with
    | true =>
      cases hb : buildTrimPyRecord v0 with
      | error e =>
        exact ⟨e, trimPyGo_cons_err k0 v0 rest acc e ht hb⟩
      | ok r =>
        rw [trimPyGo_cons_ok k0 v0 rest acc r ht hb]
        apply ih
        rcases List.mem_cons.mp hmem with h1 | h1
        · exfalso
          have hv : v = v0 := congrArg Prod.snd h1
          have := buildTrimPyRecord_ok_keys v0 r hb f hf
          rw [← hv, hnone] at this
          exact Bool.noConfusion this
        · exact ⟨k, v, f, h1, hname, hf, hnone⟩
    | false =>
      rw [trimPyGo_cons_skip k0 v0 rest acc ht]
      apply ih
      rcases List.mem_cons.mp hmem with h1 | h1
      · exfalso
        have hv : v = v0 := congrArg Prod.snd h1
        rw [hv, ht] at hname
        exact Bool.noConfusion hname
      · exact ⟨k, v, f, h1, hname, hf, hnone⟩

/-- C10: in the `src/trim.py` revision, an input record with a truthy
`"name"` that lacks any of the six hardcoded fields makes the run abort
with an uncaught `KeyError` before the file is reopened for writing, so
the input file is left unchanged. -/
theorem C10_missing_field_keyerror (data : TitleDatabase) (k : String) (v : TitleRecord)
    (f : String) (hmem : (k, v) ∈ data) (hname : truthyOpt (dictGet v "name") = true)
    (hf : f ∈ sixFields) (hnone : dictGet v f = none) :
    (∃ e, trimPyProcess data = Except.error e) ∧ trimPyFinalFile data = data := by
  rcases trimPyGo_error data [] ⟨k, v, f, hmem, hname, hf, hnone⟩ with ⟨e, he⟩
  have hproc : trimPyProcess data = Except.error e := he
  refine ⟨⟨e, hproc⟩, ?_⟩
  rw [trimPyFinalFile, hproc]

/-- Witness for C10. -/
theorem C10_missing_field_keyerror_witness :
    (("b", [("name", JValue.str "B")]) ∈ [("b", [("name", JValue.str "B")])])
    ∧ truthyOpt (dictGet [("name", JValue.str "B")] "name") = true
    ∧ ("size" ∈ sixFields)
    ∧ dictGet [("name", JValue.str "B")] "size" = none
    ∧ ((∃ e, trimPyProcess [("b", [("name", JValue.str "B")])] = Except.error e)
        ∧ trimPyFinalFile [("b", [("name", JValue.str "B")])]
            = [("b", [("name", JValue.str "B")])]) :=
  ⟨List.mem_singleton.mpr rfl, rfl, by decide, rfl,
    C10_missing_field_keyerror [("b", [("name", JValue.str "B")])] "b"
      [("name", JValue.str "B")] "size" (List.mem_singleton.mpr rfl) rfl (by decide) rfl⟩

theorem jvalNoWS_str (s : String) : jvalNoWS (JValue.str s) = strNoWS s := by
  rw [jvalNoWS]

theorem jvalNoWS_num (n : Int) : jvalNoWS (JValue.num n) = true := by
  rw [jvalNoWS]

/-- C6: the keys of the output mapping are exactly the surviving title ids
in input iteration order, and the serialized output (minimal separators)
adds no whitespace: when the database contents are whitespace-free, so is
the entire serialized output. -/
theorem C6_order_and_minimal_separators (data : TitleDatabase) (fields : List String)
    (hnd : (keysOf data).Nodup) (hws : dbNoWS data = true) :
    keysOf (trim_titledb data fields)
      = keysOf (data.filter (fun p => truthyOpt (dictGet p.2 "name")))
    ∧ strNoWS (serializeDb (trim_titledb data fields)) = true := by
  constructor
  · rw [trim_titledb_eq_filterMap data fields hnd, keysOf_filterMap_trimEntry]
  · exact serializeDb_noWS _ (dbNoWS_trim data fields hws)

/-- Witness for C6. -/
theorem C6_order_and_minimal_separators_witness :
    keysOf (trim_titledb [("a", [("name", JValue.str "X")]), ("b", [("size", JValue.num 2)])]
        ["name"])
      = keysOf ([("a", [("name", JValue.str "X")]), ("b", [("size", JValue.num 2)])].filter
          (fun p => truthyOpt (dictGet p.2 "name")))
    ∧ strNoWS (serializeDb (trim_titledb
        [("a", [("name", JValue.str "X")]), ("b", [("size", JValue.num 2)])] ["name"])) = true :=
  C6_order_and_minimal_separators
    [("a", [("name", JValue.str "X")]), ("b", [("size", JValue.num 2)])] ["name"]
    (by decide)
    (by simp [dbNoWS, recNoWS, jvalNoWS_str, jvalNoWS_num]; decide)
